import Mathlib

/-!
Shallow embedding of the room registry and signaling relay of the axi-vid
signaling server (src/src/state.rs and src/src/models.rs).

Modelling conventions:
- Wall-clock time (`std::time::Instant`) is a natural number `Time`; every
  registry operation receives the value of `Instant::now()` at call time as an
  explicit `now` argument.  An operation whose Rust body never reads the clock
  simply ignores its `now` argument.
- A peer's `tokio::sync::mpsc::UnboundedSender<WsMessage>` is modelled by the
  list of messages that have been enqueued through it, in FIFO order; `send`
  appends to that list (a failed send on a dropped channel is logged and
  ignored by the Rust code, so the model keeps the append unconditional).
- The registry's `HashMap<String, Room>` is modelled as an association list
  with first-match lookup; `setRoom` replaces the first binding of a key or
  appends a fresh binding, matching `HashMap::insert` / `entry().or_insert_with`
  up to observational equivalence through `getRoom`.
-/

/-- Wall-clock instants, as natural numbers of seconds. -/
abbrev Time := Nat

/-- WebSocket signaling messages (src/src/models.rs, enum WsMessage). -/
inductive WsMessage where
  | Offer (sdp : String)
  | Answer (sdp : String)
  | IceCandidate (candidate : String) (sdp_m_line_index : Nat) (sdp_mid : Option String)
  | Join
  | Leave
  | Chat (message : String)
  | MediaStatus (audio : Bool) (video : Bool)
  | PeerStatus (status : String)
  | Error (message : String)
  | RoomInfo (peer_count : Nat)
  | Ping
  | Pong
deriving DecidableEq, Repr

/-- `WsMessage::room_info` constructor helper (src/src/models.rs). -/
def WsMessage.room_info (peer_count : Nat) : WsMessage :=
  WsMessage.RoomInfo peer_count

/-- Maximum peers allowed per room (src/src/state.rs, MAX_PEERS_PER_ROOM). -/
def MAX_PEERS_PER_ROOM : Nat := 2

/-- Room inactivity timeout before cleanup, in seconds (src/src/state.rs, ROOM_TIMEOUT). -/
def ROOM_TIMEOUT : Time := 300

/-- The error message returned by `Room::add_peer` on a full room. -/
def addPeerFullMsg : String := "Room is full"

/-- The error message returned by `AppState::join_room` on a full room. -/
def joinRoomFullMsg : String := "Room is full (max 2 peers for 1:1 call)"

/-- A connected peer in a room (src/src/state.rs, struct Peer).  The `sender`
field holds the contents of the peer's unbounded outbound queue. -/
structure Peer where
  id : String
  sender : List WsMessage
  joined_at : Time
deriving DecidableEq, Repr

/-- `Peer::new` (src/src/state.rs): `joined_at` is the accept-time clock. -/
def Peer.new (id : String) (sender : List WsMessage) (now : Time) : Peer :=
  { id := id, sender := sender, joined_at := now }

/-- A video chat room containing up to 2 peers (src/src/state.rs, struct Room). -/
structure Room where
  id : String
  peers : List Peer
  created_at : Time
  last_activity : Time
deriving DecidableEq, Repr

/-- `Room::new` (src/src/state.rs). -/
def Room.new (id : String) (now : Time) : Room :=
  { id := id, peers := [], created_at := now, last_activity := now }

/-- `Room::is_full` (src/src/state.rs): `peers.len() >= MAX_PEERS_PER_ROOM`. -/
def Room.is_full (r : Room) : Bool :=
  decide (MAX_PEERS_PER_ROOM ≤ r.peers.length)

/-- `Room::add_peer` (src/src/state.rs): reject when full, otherwise push the
peer and advance `last_activity`. -/
def Room.add_peer (r : Room) (p : Peer) (now : Time) : Except String Room :=
  if Room.is_full r then
    Except.error addPeerFullMsg
  else
    Except.ok { r with peers := r.peers ++ [p], last_activity := now }

/-- Removal of the first peer whose id matches, mirroring
`position(|p| p.id == peer_id)` followed by `Vec::remove`; returns the removed
peer (if any) together with the remaining list. -/
def removePeerAux : List Peer → String → Option Peer × List Peer
  | [], _ => (none, [])
  | p :: ps, peer_id =>
    if p.id == peer_id then
      (some p, ps)
    else
      ((removePeerAux ps peer_id).1, p :: (removePeerAux ps peer_id).2)

/-- `Room::remove_peer` (src/src/state.rs): `last_activity` is advanced
unconditionally, before the membership test. -/
def Room.remove_peer (r : Room) (peer_id : String) (now : Time) : Option Peer × Room :=
  ((removePeerAux r.peers peer_id).1,
   { r with peers := (removePeerAux r.peers peer_id).2, last_activity := now })

/-- `Room::broadcast_to_others` (src/src/state.rs): enqueue `msg` on every peer
whose id differs from `sender_id`.  Does not touch `last_activity`. -/
def Room.broadcast_to_others (r : Room) (sender_id : String) (msg : WsMessage) : Room :=
  { r with peers := r.peers.map (fun p =>
      if p.id == sender_id then p else { p with sender := p.sender ++ [msg] }) }

/-- `Room::broadcast_to_all` (src/src/state.rs): enqueue `msg` on every peer. -/
def Room.broadcast_to_all (r : Room) (msg : WsMessage) : Room :=
  { r with peers := r.peers.map (fun p => { p with sender := p.sender ++ [msg] }) }

/-- `Room::is_inactive` (src/src/state.rs):
`peers.is_empty() && last_activity.elapsed() > ROOM_TIMEOUT` (strict). -/
def Room.is_inactive (r : Room) (now : Time) : Bool :=
  r.peers.isEmpty && decide (ROOM_TIMEOUT < now - r.last_activity)

/-- The registry map `HashMap<String, Room>`, as an association list. -/
abbrev AppState := List (String × Room)

/-- Map lookup: the first binding of `room_id`, if any. -/
def getRoom (s : AppState) (room_id : String) : Option Room :=
  (s.find? (fun kv => kv.1 == room_id)).map (fun kv => kv.2)

/-- Map insert: replace the first binding of `room_id`, or append one. -/
def setRoom (s : AppState) (room_id : String) (r : Room) : AppState :=
  match s with
  | [] => [(room_id, r)]
  | kv :: rest =>
    if kv.1 == room_id then (room_id, r) :: rest else kv :: setRoom rest room_id r

/-- `AppState::create_room` (src/src/state.rs): insert an empty room if the id
is absent, return the id. -/
def AppState.create_room (s : AppState) (room_id : String) (now : Time) : AppState × String :=
  if (getRoom s room_id).isSome then
    (s, room_id)
  else
    (setRoom s room_id (Room.new room_id now), room_id)

/-- `AppState::join_room` (src/src/state.rs): insert the room if absent
(`entry().or_insert_with`), reject when full, otherwise add the peer and
return the post-insert peer count. -/
def AppState.join_room (s : AppState) (room_id : String) (peer_id : String)
    (sender : List WsMessage) (now : Time) : AppState × Except String Nat :=
  let room := match getRoom s room_id with
    | some r => r
    | none => Room.new room_id now
  if Room.is_full room then
    (setRoom s room_id room, Except.error joinRoomFullMsg)
  else
    match Room.add_peer room (Peer.new peer_id sender now) now with
    | Except.error e => (setRoom s room_id room, Except.error e)
    | Except.ok room2 => (setRoom s room_id room2, Except.ok room2.peers.length)

/-- `AppState::leave_room` (src/src/state.rs): remove the matching peer if
present; on successful removal broadcast `Leave` then
`RoomInfo{peer_count=remaining}` to all remaining peers.  The room entry is
never deleted here. -/
def AppState.leave_room (s : AppState) (room_id : String) (peer_id : String)
    (now : Time) : AppState :=
  match getRoom s room_id with
  | none => s
  | some room =>
    match Room.remove_peer room peer_id now with
    | (some _, room1) =>
      let room2 := Room.broadcast_to_all room1 WsMessage.Leave
      let room3 := Room.broadcast_to_all room2 (WsMessage.room_info room2.peers.length)
      setRoom s room_id room3
    | (none, room1) => setRoom s room_id room1

/-- `AppState::relay_message` (src/src/state.rs): look the room up and
broadcast to the peers other than the sender; a missing room is silently
ignored.  The body performs no clock read, so `now` is unused. -/
def AppState.relay_message (s : AppState) (room_id : String) (sender_id : String)
    (msg : WsMessage) (_now : Time) : AppState :=
  match getRoom s room_id with
  | none => s
  | some room => setRoom s room_id (Room.broadcast_to_others room sender_id msg)

/-- `AppState::get_peer_count` (src/src/state.rs): 0 for unknown rooms. -/
def AppState.get_peer_count (s : AppState) (room_id : String) : Nat :=
  match getRoom s room_id with
  | some r => r.peers.length
  | none => 0

/-- `AppState::cleanup_inactive_rooms` (src/src/state.rs): retain exactly the
rooms that are not inactive. -/
def AppState.cleanup_inactive_rooms (s : AppState) (now : Time) : AppState :=
  s.filter (fun kv => !(Room.is_inactive kv.2 now))

/-- One registry operation together with the clock value at call time. -/
inductive Op where
  | create (room_id : String) (now : Time)
  | join (room_id : String) (peer_id : String) (sender : List WsMessage) (now : Time)
  | leave (room_id : String) (peer_id : String) (now : Time)
  | relay (room_id : String) (sender_id : String) (msg : WsMessage) (now : Time)
  | cleanup (now : Time)
deriving DecidableEq, Repr

/-- The state transition of one registry operation. -/
def applyOp (s : AppState) : Op → AppState
  | Op.create room_id now => (AppState.create_room s room_id now).1
  | Op.join room_id peer_id sender now => (AppState.join_room s room_id peer_id sender now).1
  | Op.leave room_id peer_id now => AppState.leave_room s room_id peer_id now
  | Op.relay room_id sender_id msg now => AppState.relay_message s room_id sender_id msg now
  | Op.cleanup now => AppState.cleanup_inactive_rooms s now

/-- The registry state reached by running `ops` from the empty registry. -/
def runOps (ops : List Op) : AppState :=
  ops.foldl applyOp []

/-- A join operation is fresh for a state when its peer id does not already
occur in the target room.  Non-join operations are always fresh. -/
def freshJoinOk (s : AppState) : Op → Bool
  | Op.join room_id peer_id _ _ =>
    match getRoom s room_id with
    | some r => r.peers.all (fun p => p.id != peer_id)
    | none => true
  | _ => true

/-- Every join in the trace uses a peer id fresh for its room at that point. -/
def FreshJoins : AppState → List Op → Bool
  | _, [] => true
  | s, op :: rest => freshJoinOk s op && FreshJoins (applyOp s op) rest

/-- Invariant I1: every room in the registry holds at most `MAX_PEERS_PER_ROOM` peers. -/
def PeersBound (s : AppState) : Prop :=
  ∀ kv ∈ s, kv.2.peers.length ≤ MAX_PEERS_PER_ROOM

/-- Invariant I2: the peer identifiers within each room are pairwise distinct. -/
def NodupIds (s : AppState) : Prop :=
  ∀ kv ∈ s, (kv.2.peers.map Peer.id).Nodup

/-- Example peer with id `p` and an empty queue. -/
def peerP : Peer := { id := "p", sender := [], joined_at := 0 }

/-- Example peer with id `q` and an empty queue. -/
def peerQ : Peer := { id := "q", sender := [], joined_at := 0 }

/-- Example room holding the two example peers. -/
def roomPQ : Room := { id := "r", peers := [peerP, peerQ], created_at := 0, last_activity := 0 }

/-- Example room holding only peer `q`. -/
def roomQ : Room := { id := "r", peers := [peerQ], created_at := 0, last_activity := 0 }

/-- Example empty room with both timestamps at 0. -/
def roomEmpty : Room := { id := "r", peers := [], created_at := 0, last_activity := 0 }

theorem getRoom_nil (room_id : String) : getRoom [] room_id = none := rfl

theorem getRoom_cons (kv : String × Room) (rest : AppState) (room_id : String) :
    getRoom (kv :: rest) room_id =
      if kv.1 == room_id then some kv.2 else getRoom rest room_id := by
  by_cases h : (kv.1 == room_id) = true
  · simp [getRoom, List.find?_cons_of_pos, h]
  · simp [getRoom, List.find?_cons_of_neg, h]

theorem getRoom_eq_some_mem {s : AppState} {room_id : String} {r : Room}
    (h : getRoom s room_id = some r) : (room_id, r) ∈ s := by
  induction s with
  | nil => simp [getRoom] at h
  | cons kv rest ih =>
    rw [getRoom_cons] at h
    by_cases hb : (kv.1 == room_id) = true
    · rw [if_pos hb] at h
      have h1 : kv.1 = room_id := by simpa [beq_iff_eq] using hb
      have h2 : kv.2 = r := by simpa using h
      cases kv
      simp_all
    · rw [if_neg (by simpa using hb)] at h
      exact List.mem_cons_of_mem _ (ih h)

theorem mem_setRoom {s : AppState} {room_id : String} {r : Room} {kv : String × Room}
    (h : kv ∈ setRoom s room_id r) : kv = (room_id, r) ∨ kv ∈ s := by
  induction s with
  | nil =>
    simp [setRoom] at h
    simp [h]
  | cons kv2 rest ih =>
    simp only [setRoom] at h
    by_cases hb : (kv2.1 == room_id) = true
    · rw [if_pos hb] at h
      rcases List.mem_cons.mp h with h1 | h1
      · exact Or.inl h1
      · exact Or.inr (List.mem_cons_of_mem _ h1)
    · rw [if_neg (by simpa using hb)] at h
      rcases List.mem_cons.mp h with h1 | h1
      · exact Or.inr (by simp [h1])
      · rcases ih h1 with h2 | h2
        · exact Or.inl h2
        · exact Or.inr (List.mem_cons_of_mem _ h2)

theorem getRoom_setRoom_self (s : AppState) (room_id : String) (r : Room) :
    getRoom (setRoom s room_id r) room_id = some r := by
  induction s with
  | nil => simp [setRoom, getRoom_cons]
  | cons kv rest ih =>
    simp only [setRoom]
    by_cases hb : (kv.1 == room_id) = true
    · rw [if_pos hb, getRoom_cons]
      simp
    · rw [if_neg (by simpa using hb), getRoom_cons, if_neg (by simpa using hb)]
      exact ih

theorem getRoom_setRoom_ne (s : AppState) {room_id other_id : String} (r : Room)
    (h : other_id ≠ room_id) :
    getRoom (setRoom s room_id r) other_id = getRoom s other_id := by
  induction s with
  | nil =>
    have : (room_id == other_id) = false := by
      simp [beq_iff_eq]
      exact fun he => h he.symm
    simp [setRoom, getRoom_cons, getRoom, this]
  | cons kv rest ih =>
    simp only [setRoom]
    by_cases hb : (kv.1 == room_id) = true
    · have hkv : kv.1 = room_id := by simpa [beq_iff_eq] using hb
      have hne : (room_id == other_id) = false := by
        simp [beq_iff_eq]
        exact fun he => h he.symm
      have hne2 : (kv.1 == other_id) = false := by rw [hkv]; exact hne
      rw [if_pos hb, getRoom_cons, getRoom_cons]
      simp [hne, hne2]
    · rw [if_neg (by simpa using hb), getRoom_cons, getRoom_cons, ih]

theorem setRoom_eq_of_getRoom {s : AppState} {room_id : String} {r : Room}
    (h : getRoom s room_id = some r) : setRoom s room_id r = s := by
  induction s with
  | nil => simp [getRoom] at h
  | cons kv rest ih =>
    rw [getRoom_cons] at h
    simp only [setRoom]
    by_cases hb : (kv.1 == room_id) = true
    · rw [if_pos hb] at h
      have h1 : kv.1 = room_id := by simpa [beq_iff_eq] using hb
      have h2 : kv.2 = r := by simpa using h
      rw [if_pos hb]
      cases kv
      simp_all
    · rw [if_neg (by simpa using hb)] at h
      rw [if_neg (by simpa using hb), ih h]

theorem removePeerAux_none_iff (ps : List Peer) (peer_id : String) :
    (removePeerAux ps peer_id).1 = none ↔ ∀ p ∈ ps, p.id ≠ peer_id := by
  induction ps with
  | nil => simp [removePeerAux]
  | cons p rest ih =>
    simp only [removePeerAux]
    by_cases hb : (p.id == peer_id) = true
    · have : p.id = peer_id := by simpa [beq_iff_eq] using hb
      simp [hb, this]
    · have hne : p.id ≠ peer_id := by simpa [beq_iff_eq] using hb
      simp [hb, hne, ih]

theorem removePeerAux_snd_of_none {ps : List Peer} {peer_id : String}
    (h : (removePeerAux ps peer_id).1 = none) : (removePeerAux ps peer_id).2 = ps := by
  induction ps with
  | nil => simp [removePeerAux]
  | cons p rest ih =>
    simp only [removePeerAux] at h ⊢
    by_cases hb : (p.id == peer_id) = true
    · simp [hb] at h
    · simp only [hb] at h ⊢
      simp at h ⊢
      exact ih h

theorem removePeerAux_sublist (ps : List Peer) (peer_id : String) :
    (removePeerAux ps peer_id).2.Sublist ps := by
  induction ps with
  | nil => simp [removePeerAux]
  | cons p rest ih =>
    simp only [removePeerAux]
    by_cases hb : (p.id == peer_id) = true
    · simp only [hb, if_pos]
      exact List.sublist_cons_self p rest
    · simp only [hb, if_neg, Bool.false_eq_true, not_false_iff]
      exact ih.cons₂ p

theorem join_room_absent {s : AppState} {room_id : String} (peer_id : String)
    (sender : List WsMessage) (now : Time) (hg : getRoom s room_id = none) :
    AppState.join_room s room_id peer_id sender now =
      (setRoom s room_id
        { id := room_id, peers := [Peer.new peer_id sender now],
          created_at := now, last_activity := now },
       Except.ok 1) := by
  simp [AppState.join_room, hg, Room.new, Room.is_full, Room.add_peer, MAX_PEERS_PER_ROOM]

theorem join_room_full {s : AppState} {room_id : String} {room : Room} (peer_id : String)
    (sender : List WsMessage) (now : Time) (hg : getRoom s room_id = some room)
    (hf : Room.is_full room = true) :
    AppState.join_room s room_id peer_id sender now =
      (setRoom s room_id room, Except.error joinRoomFullMsg) := by
  simp [AppState.join_room, hg, hf]

theorem join_room_not_full {s : AppState} {room_id : String} {room : Room} (peer_id : String)
    (sender : List WsMessage) (now : Time) (hg : getRoom s room_id = some room)
    (hf : Room.is_full room = false) :
    AppState.join_room s room_id peer_id sender now =
      (setRoom s room_id
        { room with peers := room.peers ++ [Peer.new peer_id sender now], last_activity := now },
       Except.ok (room.peers.length + 1)) := by
  simp [AppState.join_room, hg, hf, Room.add_peer]

theorem leave_room_absent {s : AppState} {room_id : String} (peer_id : String) (now : Time)
    (hg : getRoom s room_id = none) :
    AppState.leave_room s room_id peer_id now = s := by
  simp [AppState.leave_room, hg]

theorem map_sender_append_two (l : List Peer) (m1 m2 : WsMessage) :
    (l.map (fun q => { q with sender := q.sender ++ [m1] })).map
        (fun q => { q with sender := q.sender ++ [m2] })
      = l.map (fun q => { q with sender := q.sender ++ [m1, m2] }) := by
  induction l with
  | nil => simp
  | cons p rest ih => simp [ih]

theorem leave_room_removed {s : AppState} {room_id : String} {room : Room} {peer_id : String}
    {p : Peer} {rest : List Peer} (now : Time) (hg : getRoom s room_id = some room)
    (hrem : removePeerAux room.peers peer_id = (some p, rest)) :
    AppState.leave_room s room_id peer_id now =
      setRoom s room_id
        { id := room.id,
          peers := rest.map (fun q =>
            { q with sender := q.sender ++ [WsMessage.Leave, WsMessage.RoomInfo rest.length] }),
          created_at := room.created_at,
          last_activity := now } := by
  simp only [AppState.leave_room, hg, Room.remove_peer, hrem]
  simp [Room.broadcast_to_all, WsMessage.room_info, List.map_map]
  have hfun : ((fun q : Peer =>
        ({ id := q.id, sender := q.sender ++ [WsMessage.RoomInfo rest.length],
           joined_at := q.joined_at } : Peer)) ∘
      fun q : Peer =>
        ({ id := q.id, sender := q.sender ++ [WsMessage.Leave], joined_at := q.joined_at } : Peer))
      = fun q : Peer =>
        ({ id := q.id, sender := q.sender ++ [WsMessage.Leave, WsMessage.RoomInfo rest.length],
           joined_at := q.joined_at } : Peer) := by
    funext q
    simp [Function.comp]
  rw [hfun]

theorem leave_room_not_found {s : AppState} {room_id : String} {room : Room} {peer_id : String}
    (now : Time) (hg : getRoom s room_id = some room)
    (hrem : (removePeerAux room.peers peer_id).1 = none) :
    AppState.leave_room s room_id peer_id now =
      setRoom s room_id { room with last_activity := now } := by
  have hsnd := removePeerAux_snd_of_none hrem
  simp only [AppState.leave_room, hg, Room.remove_peer]
  rcases hpair : removePeerAux room.peers peer_id with ⟨ro, rl⟩
  rw [hpair] at hrem hsnd
  simp at hrem hsnd
  subst hrem
  subst hsnd
  rfl

theorem relay_message_absent {s : AppState} {room_id : String} (sender_id : String)
    (msg : WsMessage) (now : Time) (hg : getRoom s room_id = none) :
    AppState.relay_message s room_id sender_id msg now = s := by
  simp [AppState.relay_message, hg]

theorem relay_message_present {s : AppState} {room_id : String} {room : Room}
    (sender_id : String) (msg : WsMessage) (now : Time) (hg : getRoom s room_id = some room) :
    AppState.relay_message s room_id sender_id msg now =
      setRoom s room_id (Room.broadcast_to_others room sender_id msg) := by
  simp [AppState.relay_message, hg]

theorem peersBound_setRoom {s : AppState} {room_id : String} {r : Room}
    (hs : PeersBound s) (hr : r.peers.length ≤ MAX_PEERS_PER_ROOM) :
    PeersBound (setRoom s room_id r) := by
  intro kv hkv
  rcases mem_setRoom hkv with h | h
  · rw [h]
    exact hr
  · exact hs kv h

theorem peersBound_getRoom {s : AppState} {room_id : String} {r : Room}
    (hs : PeersBound s) (hg : getRoom s room_id = some r) :
    r.peers.length ≤ MAX_PEERS_PER_ROOM :=
  hs (room_id, r) (getRoom_eq_some_mem hg)

theorem is_full_false_iff (r : Room) :
    Room.is_full r = false ↔ r.peers.length < MAX_PEERS_PER_ROOM := by
  simp [Room.is_full]

theorem peersBound_join (s : AppState) (room_id peer_id : String) (sender : List WsMessage)
    (now : Time) (hs : PeersBound s) :
    PeersBound (AppState.join_room s room_id peer_id sender now).1 := by
  cases hg : getRoom s room_id with
  | none =>
    rw [join_room_absent peer_id sender now hg]
    apply peersBound_setRoom hs
    simp [MAX_PEERS_PER_ROOM]
  | some room =>
    cases hf : Room.is_full room with
    | true =>
      rw [join_room_full peer_id sender now hg hf]
      exact peersBound_setRoom hs (peersBound_getRoom hs hg)
    | false =>
      rw [join_room_not_full peer_id sender now hg hf]
      apply peersBound_setRoom hs
      have := (is_full_false_iff room).mp hf
      simp only [List.length_append, List.length_cons, List.length_nil]
      omega

theorem peersBound_leave (s : AppState) (room_id peer_id : String) (now : Time)
    (hs : PeersBound s) : PeersBound (AppState.leave_room s room_id peer_id now) := by
  cases hg : getRoom s room_id with
  | none =>
    rw [leave_room_absent peer_id now hg]
    exact hs
  | some room =>
    have hlen : (removePeerAux room.peers peer_id).2.length ≤ room.peers.length :=
      (removePeerAux_sublist room.peers peer_id).length_le
    have hroomle := peersBound_getRoom hs hg
    rcases hpair : removePeerAux room.peers peer_id with ⟨removed, rest⟩
    cases removed with
    | some p =>
      rw [leave_room_removed now hg hpair]
      apply peersBound_setRoom hs
      simp only [List.length_map]
      rw [hpair] at hlen
      simp at hlen
      omega
    | none =>
      have h1 : (removePeerAux room.peers peer_id).1 = none := by rw [hpair]
      rw [leave_room_not_found now hg h1]
      exact peersBound_setRoom hs hroomle

theorem peersBound_relay (s : AppState) (room_id sender_id : String) (msg : WsMessage)
    (now : Time) (hs : PeersBound s) :
    PeersBound (AppState.relay_message s room_id sender_id msg now) := by
  cases hg : getRoom s room_id with
  | none =>
    rw [relay_message_absent sender_id msg now hg]
    exact hs
  | some room =>
    rw [relay_message_present sender_id msg now hg]
    apply peersBound_setRoom hs
    have := peersBound_getRoom hs hg
    simpa [Room.broadcast_to_others] using this

theorem peersBound_create (s : AppState) (room_id : String) (now : Time)
    (hs : PeersBound s) : PeersBound (AppState.create_room s room_id now).1 := by
  unfold AppState.create_room
  by_cases hg : (getRoom s room_id).isSome = true
  · simp only [hg, if_pos]
    exact hs
  · simp only [hg, if_neg, Bool.false_eq_true, not_false_iff]
    apply peersBound_setRoom hs
    simp [Room.new, MAX_PEERS_PER_ROOM]

theorem peersBound_cleanup (s : AppState) (now : Time) (hs : PeersBound s) :
    PeersBound (AppState.cleanup_inactive_rooms s now) := by
  intro kv hkv
  exact hs kv (List.mem_of_mem_filter hkv)

theorem peersBound_applyOp (s : AppState) (op : Op) (hs : PeersBound s) :
    PeersBound (applyOp s op) := by
  cases op with
  | create room_id now => exact peersBound_create s room_id now hs
  | join room_id peer_id sender now => exact peersBound_join s room_id peer_id sender now hs
  | leave room_id peer_id now => exact peersBound_leave s room_id peer_id now hs
  | relay room_id sender_id msg now => exact peersBound_relay s room_id sender_id msg now hs
  | cleanup now => exact peersBound_cleanup s now hs

theorem peersBound_foldl (ops : List Op) :
    ∀ s : AppState, PeersBound s → PeersBound (List.foldl applyOp s ops) := by
  induction ops with
  | nil => intro s hs; simpa using hs
  | cons op rest ih =>
    intro s hs
    rw [List.foldl_cons]
    exact ih _ (peersBound_applyOp s op hs)

/-- C1: Capacity invariant I1 — for every sequence of registry operations
(create, join, leave, relay, cleanup) run from the empty registry, every room
of the resulting registry holds at most `MAX_PEERS_PER_ROOM` (= 2) peers. -/
theorem capacity_invariant (ops : List Op) :
    ∀ kv ∈ runOps ops, kv.2.peers.length ≤ MAX_PEERS_PER_ROOM := by
  have : PeersBound (runOps ops) := by
    apply peersBound_foldl
    intro kv hkv
    simp at hkv
  exact this

theorem capacity_invariant_witness :
    (("r", { id := "r", peers := [Peer.new "p" [] 0, Peer.new "q" [] 1],
             created_at := 0, last_activity := 1 }) ∈
        runOps [Op.join "r" "p" [] 0, Op.join "r" "q" [] 1]) ∧
    ({ id := "r", peers := [Peer.new "p" [] 0, Peer.new "q" [] 1],
       created_at := 0, last_activity := 1 } : Room).peers.length ≤ MAX_PEERS_PER_ROOM :=
  ⟨by decide,
   capacity_invariant [Op.join "r" "p" [] 0, Op.join "r" "q" [] 1]
     ("r", { id := "r", peers := [Peer.new "p" [] 0, Peer.new "q" [] 1],
             created_at := 0, last_activity := 1 }) (by decide)⟩

/-- C2: the `join_room` contract.  If the room is absent it is created and the
fresh peer is installed with result `Ok 1`; if the room is at capacity the call
returns the error "Room is full (max 2 peers for 1:1 call)" and leaves the
registry unchanged; otherwise the peer is appended and the call returns the
post-insert peer count, which is 1 or 2. -/
theorem join_room_contract (s : AppState) (room_id peer_id : String)
    (sender : List WsMessage) (now : Time) :
    (getRoom s room_id = none →
      (AppState.join_room s room_id peer_id sender now).2 = Except.ok 1 ∧
      getRoom (AppState.join_room s room_id peer_id sender now).1 room_id =
        some { id := room_id, peers := [Peer.new peer_id sender now],
               created_at := now, last_activity := now }) ∧
    (∀ room, getRoom s room_id = some room → MAX_PEERS_PER_ROOM ≤ room.peers.length →
      (AppState.join_room s room_id peer_id sender now).2 = Except.error joinRoomFullMsg ∧
      joinRoomFullMsg = "Room is full (max 2 peers for 1:1 call)" ∧
      (AppState.join_room s room_id peer_id sender now).1 = s) ∧
    (∀ room, getRoom s room_id = some room → room.peers.length < MAX_PEERS_PER_ROOM →
      (AppState.join_room s room_id peer_id sender now).2 =
        Except.ok (room.peers.length + 1) ∧
      getRoom (AppState.join_room s room_id peer_id sender now).1 room_id =
        some { room with
                 peers := room.peers ++ [Peer.new peer_id sender now],
                 last_activity := now } ∧
      (room.peers.length + 1 = 1 ∨ room.peers.length + 1 = 2)) := by
  refine ⟨?_, ?_, ?_⟩
  · intro hg
    rw [join_room_absent peer_id sender now hg]
    exact ⟨rfl, getRoom_setRoom_self s room_id _⟩
  · intro room hg hfull
    have hf : Room.is_full room = true := by simp [Room.is_full, hfull]
    rw [join_room_full peer_id sender now hg hf]
    exact ⟨rfl, rfl, setRoom_eq_of_getRoom hg⟩
  · intro room hg hlt
    have hf : Room.is_full room = false := (is_full_false_iff room).mpr hlt
    rw [join_room_not_full peer_id sender now hg hf]
    refine ⟨rfl, getRoom_setRoom_self s room_id _, ?_⟩
    have := hlt
    simp [MAX_PEERS_PER_ROOM] at this
    omega

theorem join_room_contract_witness :
    ((AppState.join_room [] "r" "p" [] 0).2 = Except.ok 1 ∧
      getRoom (AppState.join_room [] "r" "p" [] 0).1 "r" =
        some { id := "r", peers := [Peer.new "p" [] 0], created_at := 0,
               last_activity := 0 }) ∧
    ((AppState.join_room [("r", roomPQ)] "r" "z" [] 5).2 = Except.error joinRoomFullMsg ∧
      joinRoomFullMsg = "Room is full (max 2 peers for 1:1 call)" ∧
      (AppState.join_room [("r", roomPQ)] "r" "z" [] 5).1 = [("r", roomPQ)]) :=
  ⟨(join_room_contract [] "r" "p" [] 0).1 rfl,
   (join_room_contract [("r", roomPQ)] "r" "z" [] 5).2.1 roomPQ rfl (by decide)⟩

theorem create_room_of_isSome {s : AppState} {room_id : String} (now : Time)
    (h : (getRoom s room_id).isSome = true) :
    AppState.create_room s room_id now = (s, room_id) := by
  unfold AppState.create_room
  rw [if_pos h]

theorem create_room_snd (s : AppState) (room_id : String) (now : Time) :
    (AppState.create_room s room_id now).2 = room_id := by
  unfold AppState.create_room
  split <;> rfl

theorem getRoom_create_room_isSome (s : AppState) (room_id : String) (now : Time) :
    (getRoom (AppState.create_room s room_id now).1 room_id).isSome = true := by
  unfold AppState.create_room
  by_cases hg : (getRoom s room_id).isSome = true
  · simp only [hg, if_pos]
  · simp only [hg, if_neg, Bool.false_eq_true, not_false_iff]
    rw [getRoom_setRoom_self]
    rfl

/-- C9: `create_room` is idempotent — a second call with the same id (at any
later clock value) changes nothing and returns the same id. -/
theorem create_room_idempotent (s : AppState) (room_id : String) (t1 t2 : Time) :
    (AppState.create_room (AppState.create_room s room_id t1).1 room_id t2).1
      = (AppState.create_room s room_id t1).1 ∧
    (AppState.create_room (AppState.create_room s room_id t1).1 room_id t2).2 = room_id ∧
    (AppState.create_room s room_id t1).2 = room_id := by
  have h2 := create_room_of_isSome t2 (getRoom_create_room_isSome s room_id t1)
  rw [h2]
  exact ⟨rfl, rfl, create_room_snd s room_id t1⟩

theorem forall₂_map_self {α β : Type} (R : α → β → Prop) (f : α → β)
    (h : ∀ a, R a (f a)) : ∀ l : List α, List.Forall₂ R l (l.map f)
  | [] => List.Forall₂.nil
  | a :: l => List.Forall₂.cons (h a) (forall₂_map_self R f h l)

/-- C3: `relay_message` enqueues the message on exactly those peers of the
room whose id differs from the sender id (never on the sender), leaves every
other room untouched, and is a no-op when the room does not exist. -/
theorem relay_message_spec (s : AppState) (room_id sender_id : String)
    (msg : WsMessage) (now : Time) :
    (getRoom s room_id = none → AppState.relay_message s room_id sender_id msg now = s) ∧
    (∀ room, getRoom s room_id = some room →
      ∃ room2, getRoom (AppState.relay_message s room_id sender_id msg now) room_id =
          some room2 ∧
        room2.last_activity = room.last_activity ∧
        List.Forall₂ (fun p q =>
          (p.id = sender_id → q = p) ∧
          (p.id ≠ sender_id → q = { p with sender := p.sender ++ [msg] }))
          room.peers room2.peers) ∧
    (∀ other_id, other_id ≠ room_id →
      getRoom (AppState.relay_message s room_id sender_id msg now) other_id =
        getRoom s other_id) := by
  refine ⟨?_, ?_, ?_⟩
  · intro hg
    exact relay_message_absent sender_id msg now hg
  · intro room hg
    rw [relay_message_present sender_id msg now hg]
    refine ⟨Room.broadcast_to_others room sender_id msg,
      getRoom_setRoom_self s room_id _, rfl, ?_⟩
    apply forall₂_map_self
    intro p
    constructor
    · intro hp
      simp [hp]
    · intro hp
      have : (p.id == sender_id) = false := by simpa [beq_iff_eq] using hp
      simp [this]
  · intro other_id hne
    cases hg : getRoom s room_id with
    | none =>
      rw [relay_message_absent sender_id msg now hg]
    | some room =>
      rw [relay_message_present sender_id msg now hg]
      exact getRoom_setRoom_ne s _ hne

theorem relay_message_spec_witness :
    AppState.relay_message [] "r" "p" WsMessage.Ping 7 = [] ∧
    getRoom (AppState.relay_message [("r", roomPQ)] "r" "p" WsMessage.Ping 7) "x" =
      getRoom [("r", roomPQ)] "x" :=
  ⟨(relay_message_spec [] "r" "p" WsMessage.Ping 7).1 rfl,
   (relay_message_spec [("r", roomPQ)] "r" "p" WsMessage.Ping 7).2.2 "x" (by decide)⟩

/-- C4 counterexample: a `relay_message` call at clock value 7 on an existing
room (one peer `q`, sender id `p`) delivers the message but leaves the room's
`last_activity` at 0 — the claim that every relay operation advances
`last_activity` to the current time is false. -/
theorem relay_no_activity_update_counterexample :
    getRoom [("r", roomQ)] "r" = some roomQ ∧
    roomQ.last_activity = 0 ∧
    getRoom (AppState.relay_message [("r", roomQ)] "r" "p" WsMessage.Ping 7) "r" =
      some { id := "r", peers := [{ id := "q", sender := [WsMessage.Ping], joined_at := 0 }],
             created_at := 0, last_activity := 0 } ∧
    ({ id := "r", peers := [{ id := "q", sender := [WsMessage.Ping], joined_at := 0 }],
       created_at := 0, last_activity := 0 } : Room).last_activity ≠ 7 := by
  refine ⟨rfl, rfl, by decide, by decide⟩

/-- C4 amended: `last_activity` is advanced to the call-time clock by
`Room::add_peer` and `Room::remove_peer`, but `relay_message` leaves the
`last_activity` of every room in the registry unchanged. -/
theorem last_activity_advance_amended (r : Room) (p : Peer) (peer_id : String)
    (now : Time) (s : AppState) (room_id sender_id : String) (msg : WsMessage)
    (t : Time) :
    (∀ r2, Room.add_peer r p now = Except.ok r2 → r2.last_activity = now) ∧
    ((Room.remove_peer r peer_id now).2.last_activity = now) ∧
    (∀ some_id r2,
      getRoom (AppState.relay_message s room_id sender_id msg t) some_id = some r2 →
      ∃ r0, getRoom s some_id = some r0 ∧ r2.last_activity = r0.last_activity) := by
  refine ⟨?_, rfl, ?_⟩
  · intro r2 h2
    unfold Room.add_peer at h2
    by_cases hf : Room.is_full r = true
    · rw [if_pos hf] at h2
      exact absurd h2 (by simp)
    · rw [if_neg hf] at h2
      have := Except.ok.inj h2
      rw [← this]
  · intro some_id r2 h2
    cases hg : getRoom s room_id with
    | none =>
      rw [relay_message_absent sender_id msg t hg] at h2
      exact ⟨r2, h2, rfl⟩
    | some room =>
      rw [relay_message_present sender_id msg t hg] at h2
      by_cases hid : some_id = room_id
      · subst hid
        rw [getRoom_setRoom_self] at h2
        have h3 := Option.some.inj h2
        refine ⟨room, hg, ?_⟩
        rw [← h3]
        rfl
      · rw [getRoom_setRoom_ne s _ hid] at h2
        exact ⟨r2, h2, rfl⟩

theorem last_activity_advance_amended_witness :
    (Room.remove_peer roomQ "q" 5).2.last_activity = 5 :=
  (last_activity_advance_amended roomQ peerP "q" 5 [] "r" "p" WsMessage.Ping 7).2.1

/-- C5 counterexample: an empty room whose elapsed idle time is exactly
`ROOM_TIMEOUT` (300 s) is *not* inactive — `is_inactive` uses a strict
comparison, so the claim that it returns true at elapsed time equal to
`ROOM_TIMEOUT` is false. -/
theorem is_inactive_at_timeout_counterexample :
    roomEmpty.peers = [] ∧
    (300 : Time) - roomEmpty.last_activity = ROOM_TIMEOUT ∧
    Room.is_inactive roomEmpty 300 = false := by
  refine ⟨rfl, rfl, by decide⟩

/-- C5 amended: `is_inactive` returns true iff the peer list is empty and the
elapsed time since `last_activity` is *strictly greater* than `ROOM_TIMEOUT`;
at elapsed time exactly `ROOM_TIMEOUT` it returns false. -/
theorem is_inactive_iff (r : Room) (now : Time) :
    (Room.is_inactive r now = true ↔
      (r.peers = [] ∧ ROOM_TIMEOUT < now - r.last_activity)) ∧
    (now - r.last_activity = ROOM_TIMEOUT → Room.is_inactive r now = false) := by
  constructor
  · simp [Room.is_inactive, List.isEmpty_iff]
  · intro he
    simp [Room.is_inactive, he]

/-- C6: `leave_room` semantics.  On a missing room it is a no-op; the room
entry survives every call; when a peer with the given id is present, the first
such peer is removed and every surviving peer has `Leave` followed by
`RoomInfo` with the remaining peer count appended to its queue, in that order;
when no peer matches, no message is broadcast (the peer list is unchanged). -/
theorem leave_room_spec (s : AppState) (room_id peer_id : String) (now : Time) :
    (getRoom s room_id = none → AppState.leave_room s room_id peer_id now = s) ∧
    (∀ room, getRoom s room_id = some room →
      (getRoom (AppState.leave_room s room_id peer_id now) room_id).isSome = true) ∧
    (∀ room p rest, getRoom s room_id = some room →
      removePeerAux room.peers peer_id = (some p, rest) →
      getRoom (AppState.leave_room s room_id peer_id now) room_id =
        some { id := room.id,
               peers := rest.map (fun q =>
                 { q with sender :=
                     q.sender ++ [WsMessage.Leave, WsMessage.RoomInfo rest.length] }),
               created_at := room.created_at,
               last_activity := now }) ∧
    (∀ room, getRoom s room_id = some room →
      (removePeerAux room.peers peer_id).1 = none →
      getRoom (AppState.leave_room s room_id peer_id now) room_id =
        some { room with last_activity := now }) := by
  refine ⟨?_, ?_, ?_, ?_⟩
  · intro hg
    exact leave_room_absent peer_id now hg
  · intro room hg
    rcases hpair : removePeerAux room.peers peer_id with ⟨removed, rest⟩
    cases removed with
    | some p =>
      rw [leave_room_removed now hg hpair, getRoom_setRoom_self]
      rfl
    | none =>
      have h1 : (removePeerAux room.peers peer_id).1 = none := by rw [hpair]
      rw [leave_room_not_found now hg h1, getRoom_setRoom_self]
      rfl
  · intro room p rest hg hpair
    rw [leave_room_removed now hg hpair, getRoom_setRoom_self]
  · intro room hg h1
    rw [leave_room_not_found now hg h1, getRoom_setRoom_self]

theorem leave_room_spec_witness :
    getRoom (AppState.leave_room [("r", roomPQ)] "r" "p" 9) "r" =
      some { id := "r",
             peers := [{ id := "q", sender := [WsMessage.Leave, WsMessage.RoomInfo 1],
                         joined_at := 0 }],
             created_at := 0,
             last_activity := 9 } := by
  have h := (leave_room_spec [("r", roomPQ)] "r" "p" 9).2.2.1 roomPQ peerP [peerQ]
    rfl (by decide)
  simpa [peerQ] using h

/-- C10: `remove_peer` advances `last_activity` before testing membership, so
`leave_room` on an existing room with a peer id that is not a member still
refreshes the room's idle clock to the call time while removing no peer and
broadcasting nothing, and the refreshed room is not inactive at any clock
value within `ROOM_TIMEOUT` of the call. -/
theorem leave_room_nonmember_refresh (s : AppState) (room_id peer_id : String)
    (now : Time) (room : Room) (hg : getRoom s room_id = some room)
    (hnm : ∀ p ∈ room.peers, p.id ≠ peer_id) :
    AppState.leave_room s room_id peer_id now =
      setRoom s room_id { room with last_activity := now } ∧
    getRoom (AppState.leave_room s room_id peer_id now) room_id =
      some { room with last_activity := now } ∧
    (∀ t : Time, t - now ≤ ROOM_TIMEOUT →
      Room.is_inactive { room with last_activity := now } t = false) := by
  have h1 : (removePeerAux room.peers peer_id).1 = none :=
    (removePeerAux_none_iff room.peers peer_id).mpr hnm
  refine ⟨leave_room_not_found now hg h1, ?_, ?_⟩
  · rw [leave_room_not_found now hg h1, getRoom_setRoom_self]
  · intro t ht
    simp only [Room.is_inactive]
    have : ¬ (ROOM_TIMEOUT < t - now) := Nat.not_lt.mpr ht
    simp [this]

theorem leave_room_nonmember_refresh_witness :
    AppState.leave_room [("r", roomQ)] "r" "p" 9 =
      setRoom [("r", roomQ)] "r" { roomQ with last_activity := 9 } ∧
    getRoom (AppState.leave_room [("r", roomQ)] "r" "p" 9) "r" =
      some { roomQ with last_activity := 9 } ∧
    (∀ t : Time, t - 9 ≤ ROOM_TIMEOUT →
      Room.is_inactive { roomQ with last_activity := 9 } t = false) :=
  leave_room_nonmember_refresh [("r", roomQ)] "r" "p" 9 roomQ rfl (by decide)

theorem mem_unique_keys {s : AppState} {k : String} {a b : Room}
    (hnd : (s.map Prod.fst).Nodup) (ha : (k, a) ∈ s) (hb : (k, b) ∈ s) : a = b := by
  induction s with
  | nil => simp at ha
  | cons kv rest ih =>
    rw [List.map_cons, List.nodup_cons] at hnd
    rcases List.mem_cons.mp ha with ha1 | ha1
    · rcases List.mem_cons.mp hb with hb1 | hb1
      · rw [← ha1] at hb1
        exact (Prod.ext_iff.mp hb1).2.symm
      · exfalso
        apply hnd.1
        have hk : k ∈ rest.map Prod.fst := List.mem_map.mpr ⟨(k, b), hb1, rfl⟩
        rw [← ha1]
        exact hk
    · rcases List.mem_cons.mp hb with hb1 | hb1
      · exfalso
        apply hnd.1
        have hk : k ∈ rest.map Prod.fst := List.mem_map.mpr ⟨(k, a), ha1, rfl⟩
        rw [← hb1]
        exact hk
      · exact ih hnd.2 ha1 hb1

theorem getRoom_filter_keep {s : AppState} {room_id : String} {r : Room}
    {pr : String × Room → Bool} (hg : getRoom s room_id = some r)
    (hp : pr (room_id, r) = true) : getRoom (s.filter pr) room_id = some r := by
  induction s with
  | nil => simp [getRoom] at hg
  | cons kv rest ih =>
    rw [getRoom_cons] at hg
    rw [List.filter_cons]
    by_cases hb : (kv.1 == room_id) = true
    · rw [if_pos hb] at hg
      have h1 : kv.1 = room_id := by simpa [beq_iff_eq] using hb
      have h2 : kv.2 = r := by simpa using hg
      have hkv : kv = (room_id, r) := by
        cases kv
        simp_all
      rw [hkv, hp]
      simp only [if_pos]
      rw [getRoom_cons]
      simp
    · rw [if_neg (by simpa using hb)] at hg
      by_cases hpk : pr kv = true
      · rw [hpk]
        simp only [if_pos]
        rw [getRoom_cons, if_neg (by simpa using hb)]
        exact ih hg
      · rw [Bool.eq_false_iff.mpr hpk]
        simp only [Bool.false_eq_true, if_neg, not_false_iff]
        exact ih hg

theorem getRoom_filter_drop {s : AppState} {room_id : String} {r : Room}
    {pr : String × Room → Bool} (hnd : (s.map Prod.fst).Nodup)
    (hg : getRoom s room_id = some r) (hp : pr (room_id, r) = false) :
    getRoom (s.filter pr) room_id = none := by
  cases hres : getRoom (s.filter pr) room_id with
  | none => rfl
  | some r2 =>
    exfalso
    have hmemf : (room_id, r2) ∈ s.filter pr := getRoom_eq_some_mem hres
    have hmems : (room_id, r2) ∈ s := List.mem_of_mem_filter hmemf
    have hmem1 : (room_id, r) ∈ s := getRoom_eq_some_mem hg
    have heq : r2 = r := mem_unique_keys hnd hmems hmem1
    have htrue : pr (room_id, r2) = true := List.of_mem_filter hmemf
    rw [heq, hp] at htrue
    exact Bool.false_ne_true htrue

/-- C7: `cleanup_inactive_rooms` removes exactly the rooms for which
`is_inactive` holds at the call time and retains all others, unchanged: a room
that is not inactive survives with the same contents, a room holding at least
one peer always survives, and an empty room idle strictly longer than
`ROOM_TIMEOUT` is absent afterwards. -/
theorem cleanup_spec (s : AppState) (now : Time) (hnd : (s.map Prod.fst).Nodup) :
    (∀ kv, kv ∈ AppState.cleanup_inactive_rooms s now ↔
      (kv ∈ s ∧ Room.is_inactive kv.2 now = false)) ∧
    (∀ room_id room, getRoom s room_id = some room →
      Room.is_inactive room now = false →
      getRoom (AppState.cleanup_inactive_rooms s now) room_id = some room) ∧
    (∀ room_id room, getRoom s room_id = some room →
      Room.is_inactive room now = true →
      getRoom (AppState.cleanup_inactive_rooms s now) room_id = none) ∧
    (∀ room_id room, getRoom s room_id = some room → room.peers ≠ [] →
      getRoom (AppState.cleanup_inactive_rooms s now) room_id = some room) ∧
    (∀ room_id room, getRoom s room_id = some room → room.peers = [] →
      ROOM_TIMEOUT < now - room.last_activity →
      getRoom (AppState.cleanup_inactive_rooms s now) room_id = none) := by
  have hkeep : ∀ room_id room, getRoom s room_id = some room →
      Room.is_inactive room now = false →
      getRoom (AppState.cleanup_inactive_rooms s now) room_id = some room := by
    intro room_id room hg hi
    apply getRoom_filter_keep hg
    simp [hi]
  have hdrop : ∀ room_id room, getRoom s room_id = some room →
      Room.is_inactive room now = true →
      getRoom (AppState.cleanup_inactive_rooms s now) room_id = none := by
    intro room_id room hg hi
    apply getRoom_filter_drop hnd hg
    simp [hi]
  refine ⟨?_, hkeep, hdrop, ?_, ?_⟩
  · intro kv
    constructor
    · intro hkv
      exact ⟨List.mem_of_mem_filter hkv, by simpa using List.of_mem_filter hkv⟩
    · intro ⟨hmem, hi⟩
      apply List.mem_filter.mpr
      exact ⟨hmem, by simp [hi]⟩
  · intro room_id room hg hne
    apply hkeep room_id room hg
    simp [Room.is_inactive, List.isEmpty_iff, hne]
  · intro room_id room hg hempty hlate
    apply hdrop room_id room hg
    simp [Room.is_inactive, List.isEmpty_iff, hempty, hlate]

theorem cleanup_spec_witness :
    getRoom (AppState.cleanup_inactive_rooms [("r", roomEmpty), ("s", roomQ)] 301) "r" =
      none ∧
    getRoom (AppState.cleanup_inactive_rooms [("r", roomEmpty), ("s", roomQ)] 301) "s" =
      some roomQ :=
  ⟨(cleanup_spec [("r", roomEmpty), ("s", roomQ)] 301 (by decide)).2.2.2.2 "r" roomEmpty
      rfl rfl (by decide),
   (cleanup_spec [("r", roomEmpty), ("s", roomQ)] 301 (by decide)).2.2.2.1 "s" roomQ
      rfl (by decide)⟩

/-- C8 counterexample: `join_room` never checks whether the peer id is already
present, so two joins with the same peer id — a reachable call sequence when
`join_room` is callable with arbitrary peer_id arguments — produce a room
whose peer identifiers are not pairwise distinct. -/
theorem peer_id_uniqueness_counterexample :
    getRoom (runOps [Op.join "r" "p" [] 0, Op.join "r" "p" [] 1]) "r" =
      some { id := "r", peers := [Peer.new "p" [] 0, Peer.new "p" [] 1],
             created_at := 0, last_activity := 1 } ∧
    ({ id := "r", peers := [Peer.new "p" [] 0, Peer.new "p" [] 1],
       created_at := 0, last_activity := 1 } : Room).peers.map Peer.id = ["p", "p"] ∧
    ¬ (({ id := "r", peers := [Peer.new "p" [] 0, Peer.new "p" [] 1],
          created_at := 0, last_activity := 1 } : Room).peers.map Peer.id).Nodup := by
  refine ⟨by decide, rfl, by decide⟩

theorem map_id_append_msgs (l : List Peer) (ms : List WsMessage) :
    (l.map (fun q => ({ q with sender := q.sender ++ ms } : Peer))).map Peer.id
      = l.map Peer.id := by
  induction l with
  | nil => simp
  | cons p rest ih => simp [ih]

theorem map_id_broadcast_to_others (r : Room) (sender_id : String) (msg : WsMessage) :
    (Room.broadcast_to_others r sender_id msg).peers.map Peer.id = r.peers.map Peer.id := by
  simp only [Room.broadcast_to_others]
  have h : ∀ l : List Peer,
      (l.map (fun p =>
        if p.id == sender_id then p else { p with sender := p.sender ++ [msg] })).map Peer.id
      = l.map Peer.id := by
    intro l
    induction l with
    | nil => rfl
    | cons p rest ih =>
      simp only [List.map_cons]
      rw [ih]
      by_cases hb : (p.id == sender_id) = true
      · rw [if_pos hb]
      · rw [if_neg hb]
  exact h r.peers

theorem nodupIds_getRoom {s : AppState} {room_id : String} {r : Room}
    (hs : NodupIds s) (hg : getRoom s room_id = some r) :
    (r.peers.map Peer.id).Nodup :=
  hs (room_id, r) (getRoom_eq_some_mem hg)

theorem nodupIds_setRoom {s : AppState} {room_id : String} {r : Room}
    (hs : NodupIds s) (hr : (r.peers.map Peer.id).Nodup) :
    NodupIds (setRoom s room_id r) := by
  intro kv hkv
  rcases mem_setRoom hkv with h | h
  · rw [h]
    exact hr
  · exact hs kv h

theorem nodup_append_singleton {α : Type} {l : List α} {a : α}
    (hl : l.Nodup) (ha : a ∉ l) : (l ++ [a]).Nodup := by
  rw [List.nodup_append]
  refine ⟨hl, List.nodup_singleton a, ?_⟩
  intro x hx
  simp only [List.mem_singleton]
  intro he
  exact ha (he ▸ hx)

theorem nodupIds_applyOp (s : AppState) (op : Op) (hs : NodupIds s)
    (hf : freshJoinOk s op = true) : NodupIds (applyOp s op) := by
  cases op with
  | create room_id now =>
    simp only [applyOp]
    unfold AppState.create_room
    by_cases hg : (getRoom s room_id).isSome = true
    · simp only [hg, if_pos]
      exact hs
    · simp only [hg, if_neg, Bool.false_eq_true, not_false_iff]
      apply nodupIds_setRoom hs
      simp [Room.new]
  | join room_id peer_id sender now =>
    simp only [applyOp]
    cases hg : getRoom s room_id with
    | none =>
      rw [join_room_absent peer_id sender now hg]
      apply nodupIds_setRoom hs
      simp
    | some room =>
      have hfresh : ∀ p ∈ room.peers, p.id ≠ peer_id := by
        simp only [freshJoinOk, hg] at hf
        intro p hp
        have := List.all_eq_true.mp hf p hp
        simpa using this
      cases hfull : Room.is_full room with
      | true =>
        rw [join_room_full peer_id sender now hg hfull]
        exact nodupIds_setRoom hs (nodupIds_getRoom hs hg)
      | false =>
        rw [join_room_not_full peer_id sender now hg hfull]
        apply nodupIds_setRoom hs
        simp only [List.map_append]
        have hnotin : peer_id ∉ room.peers.map Peer.id := by
          intro hmem
          rcases List.mem_map.mp hmem with ⟨p, hp, hpe⟩
          exact hfresh p hp hpe
        have := nodup_append_singleton (nodupIds_getRoom hs hg) hnotin
        simpa [Peer.new] using this
  | leave room_id peer_id now =>
    simp only [applyOp]
    cases hg : getRoom s room_id with
    | none =>
      rw [leave_room_absent peer_id now hg]
      exact hs
    | some room =>
      rcases hpair : removePeerAux room.peers peer_id with ⟨removed, rest⟩
      have hsub : (rest.map Peer.id).Sublist (room.peers.map Peer.id) := by
        have h0 := removePeerAux_sublist room.peers peer_id
        rw [hpair] at h0
        exact h0.map Peer.id
      have hrest : (rest.map Peer.id).Nodup :=
        (nodupIds_getRoom hs hg).sublist hsub
      cases removed with
      | some p =>
        rw [leave_room_removed now hg hpair]
        apply nodupIds_setRoom hs
        simpa [map_id_append_msgs] using hrest
      | none =>
        have h1 : (removePeerAux room.peers peer_id).1 = none := by rw [hpair]
        rw [leave_room_not_found now hg h1]
        apply nodupIds_setRoom hs
        have hh := nodupIds_getRoom hs hg
        exact hh
  | relay room_id sender_id msg now =>
    simp only [applyOp]
    cases hg : getRoom s room_id with
    | none =>
      rw [relay_message_absent sender_id msg now hg]
      exact hs
    | some room =>
      rw [relay_message_present sender_id msg now hg]
      apply nodupIds_setRoom hs
      rw [map_id_broadcast_to_others]
      exact nodupIds_getRoom hs hg
  | cleanup now =>
    simp only [applyOp]
    intro kv hkv
    exact hs kv (List.mem_of_mem_filter hkv)

theorem nodupIds_foldl (ops : List Op) :
    ∀ s : AppState, NodupIds s → FreshJoins s ops = true →
      NodupIds (List.foldl applyOp s ops) := by
  induction ops with
  | nil =>
    intro s hs _
    simpa using hs
  | cons op rest ih =>
    intro s hs hfresh
    rw [FreshJoins] at hfresh
    have h12 : freshJoinOk s op = true ∧ FreshJoins (applyOp s op) rest = true := by
      simpa using hfresh
    rw [List.foldl_cons]
    exact ih _ (nodupIds_applyOp s op hs h12.1) h12.2

/-- C8 amended: for every sequence of registry operations run from the empty
registry in which each `join_room` call uses a peer id not already present in
its target room (as the Connection Driver's freshly generated UUIDs ensure),
the peer identifiers within every room are pairwise distinct. -/
theorem peer_id_uniqueness_of_fresh (ops : List Op) (h : FreshJoins [] ops = true) :
    ∀ kv ∈ runOps ops, (kv.2.peers.map Peer.id).Nodup := by
  have : NodupIds (runOps ops) := by
    apply nodupIds_foldl ops [] _ h
    intro kv hkv
    simp at hkv
  exact this

theorem peer_id_uniqueness_of_fresh_witness :
    FreshJoins [] [Op.join "r" "p" [] 0, Op.join "r" "q" [] 1] = true ∧
    (("r", { id := "r", peers := [Peer.new "p" [] 0, Peer.new "q" [] 1],
             created_at := 0, last_activity := 1 }) ∈
        runOps [Op.join "r" "p" [] 0, Op.join "r" "q" [] 1]) ∧
    (({ id := "r", peers := [Peer.new "p" [] 0, Peer.new "q" [] 1],
        created_at := 0, last_activity := 1 } : Room).peers.map Peer.id).Nodup :=
  ⟨by decide, by decide,
   peer_id_uniqueness_of_fresh [Op.join "r" "p" [] 0, Op.join "r" "q" [] 1] (by decide)
     ("r", { id := "r", peers := [Peer.new "p" [] 0, Peer.new "q" [] 1],
             created_at := 0, last_activity := 1 }) (by decide)⟩

theorem is_inactive_iff_witness :
    Room.is_inactive roomEmpty 300 = false :=
  (is_inactive_iff roomEmpty 300).2 rfl
